import Mathlib

/-!
Verification development for the reorder lifecycle engine of the Magazzino
repository (src/app.py).  The definitions below are shallow embeddings of the
relevant Python functions: text values are modelled as `String` (or `List Char`
where character-level processing matters), SQLite integer columns as `Int`
(a `NULL`-able column read through `int(x or 0)` is modelled as the resulting
`Int`), nullable text columns as `Option String`, and each SQL table as an
association list from its key to the remaining columns.
-/

namespace Magazzino

/-- Python `str.strip()` on a list of characters: drop whitespace at both ends
(models stripping of the ASCII text that flows through the app). -/
def pyStripL (l : List Char) : List Char :=
  ((l.dropWhile Char.isWhitespace).reverse.dropWhile Char.isWhitespace).reverse

/-- Python `str.strip()` on strings. -/
def pyStripS (s : String) : String := ⟨pyStripL s.data⟩

/-- First row matching a key: `SELECT ... WHERE key=? ... fetchone()`. -/
def tblGet {α β : Type} [DecidableEq α] : List (α × β) → α → Option β
  | [], _ => none
  | (k, v) :: rest, key => if k = key then some v else tblGet rest key

/-- `UPDATE ... WHERE key=?`: replace the value of every row with the key. -/
def tblSet {α β : Type} [DecidableEq α] : List (α × β) → α → β → List (α × β)
  | [], _, _ => []
  | (k, w) :: rest, key, v =>
      if k = key then (k, v) :: tblSet rest key v else (k, w) :: tblSet rest key v

/-- `DELETE FROM ... WHERE key=?`. -/
def tblDel {α β : Type} [DecidableEq α] : List (α × β) → α → List (α × β)
  | [], _ => []
  | (k, v) :: rest, key =>
      if k = key then tblDel rest key else (k, v) :: tblDel rest key

/-- `INSERT OR REPLACE` keyed on the primary key: overwrite the row when the
key is present, append it otherwise. -/
def tblPut {α β : Type} [DecidableEq α] (l : List (α × β)) (key : α) (v : β) :
    List (α × β) :=
  if (tblGet l key).isSome then tblSet l key v else l ++ [(key, v)]

theorem tblGet_append_none {α β : Type} [DecidableEq α]
    {l : List (α × β)} {key : α} (h : tblGet l key = none) (t : List (α × β)) :
    tblGet (l ++ t) key = tblGet t key := by
  induction l with
  | nil => rfl
  | cons p rest ih =>
      obtain ⟨k, w⟩ := p
      by_cases hk : k = key
      · rw [tblGet] at h; simp [hk] at h
      · rw [tblGet] at h
        simp only [if_neg hk] at h
        simpa [tblGet, hk] using ih h

theorem tblGet_tblSet_self {α β : Type} [DecidableEq α]
    (l : List (α × β)) (key : α) (v : β) :
    tblGet (tblSet l key v) key = (tblGet l key).map (fun _ => v) := by
  induction l with
  | nil => rfl
  | cons p rest ih =>
      obtain ⟨k, w⟩ := p
      by_cases h : k = key <;> simp [tblSet, tblGet, h, ih]

theorem tblGet_tblSet_ne {α β : Type} [DecidableEq α]
    (l : List (α × β)) (key key' : α) (v : β) (h : key' ≠ key) :
    tblGet (tblSet l key v) key' = tblGet l key' := by
  induction l with
  | nil => rfl
  | cons p rest ih =>
      obtain ⟨k, w⟩ := p
      by_cases hk : k = key
      · subst hk
        simp [tblSet, tblGet, (Ne.symm h), ih]
      · by_cases hk' : k = key' <;> simp [tblSet, tblGet, hk, hk', h, ih]

theorem tblGet_tblDel_self {α β : Type} [DecidableEq α]
    (l : List (α × β)) (key : α) :
    tblGet (tblDel l key) key = none := by
  induction l with
  | nil => rfl
  | cons p rest ih =>
      obtain ⟨k, w⟩ := p
      by_cases h : k = key <;> simp [tblDel, tblGet, h, ih]

theorem tblGet_tblDel_ne {α β : Type} [DecidableEq α]
    (l : List (α × β)) (key key' : α) (h : key' ≠ key) :
    tblGet (tblDel l key) key' = tblGet l key' := by
  induction l with
  | nil => rfl
  | cons p rest ih =>
      obtain ⟨k, w⟩ := p
      by_cases hk : k = key
      · subst hk
        simp [tblDel, tblGet, (Ne.symm h), ih]
      · by_cases hk' : k = key' <;> simp [tblDel, tblGet, hk, hk', h, ih]

theorem tblGet_tblPut_self {α β : Type} [DecidableEq α]
    (l : List (α × β)) (key : α) (v : β) :
    tblGet (tblPut l key v) key = some v := by
  unfold tblPut
  by_cases h : (tblGet l key).isSome
  · rw [if_pos h, tblGet_tblSet_self]
    obtain ⟨w, hw⟩ := Option.isSome_iff_exists.mp h
    rw [hw]; rfl
  · rw [if_neg h]
    rw [Option.not_isSome_iff_eq_none] at h
    rw [tblGet_append_none h]
    simp [tblGet]

theorem mem_tblSet_elim {α β : Type} [DecidableEq α]
    {l : List (α × β)} {key : α} {v : β} {p : α × β}
    (hp : p ∈ tblSet l key v) : p ∈ l ∨ p.2 = v := by
  induction l with
  | nil => simp [tblSet] at hp
  | cons q rest ih =>
      obtain ⟨k, w⟩ := q
      by_cases h : k = key
      · simp only [tblSet, if_pos h, List.mem_cons] at hp
        rcases hp with h1 | h2
        · right; rw [h1]
        · rcases ih h2 with h3 | h3
          · left; exact List.mem_cons_of_mem _ h3
          · right; exact h3
      · simp only [tblSet, if_neg h, List.mem_cons] at hp
        rcases hp with h1 | h2
        · left; rw [h1]; exact List.mem_cons_self _ _
        · rcases ih h2 with h3 | h3
          · left; exact List.mem_cons_of_mem _ h3
          · right; exact h3

theorem mem_tblDel_elim {α β : Type} [DecidableEq α]
    {l : List (α × β)} {key : α} {p : α × β}
    (hp : p ∈ tblDel l key) : p ∈ l := by
  induction l with
  | nil => simp [tblDel] at hp
  | cons q rest ih =>
      obtain ⟨k, w⟩ := q
      by_cases h : k = key
      · simp only [tblDel, if_pos h] at hp
        exact List.mem_cons_of_mem _ (ih hp)
      · simp only [tblDel, if_neg h, List.mem_cons] at hp
        rcases hp with h1 | h2
        · rw [h1]; exact List.mem_cons_self _ _
        · exact List.mem_cons_of_mem _ (ih h2)

theorem tblGet_none_tblSet {α β : Type} [DecidableEq α]
    {l : List (α × β)} {id key : α} (v : β) (h : tblGet l id = none) :
    tblGet (tblSet l key v) id = none := by
  by_cases hk : id = key
  · subst hk
    rw [tblGet_tblSet_self, h]; rfl
  · rw [tblGet_tblSet_ne _ _ _ _ hk, h]

theorem tblGet_none_tblDel {α β : Type} [DecidableEq α]
    {l : List (α × β)} {id key : α} (h : tblGet l id = none) :
    tblGet (tblDel l key) id = none := by
  by_cases hk : id = key
  · subst hk
    exact tblGet_tblDel_self l _
  · rw [tblGet_tblDel_ne _ _ _ hk, h]

/-! ## Shortage detector (route `riordini`, src/app.py lines 5502-5746)

Per combination of the article catalog the route computes the stock, resolves
the applicable threshold rule (extended six-field map first, then the legacy
three-field map, then the system default), skips the combination when the
threshold is the `0` sentinel, and, when `stock ≤ threshold`, emits the
combination with a suggested order quantity. -/

/-- Default threshold, `DEFAULT_REORDER_THRESHOLD = 5` (src/app.py line 666). -/
def DEFAULT_REORDER_THRESHOLD : Int := 5

/-- Threshold resolution (lines 5704-5706): the extended map wins when the
six-field key is present, else the legacy map, else the default. -/
def resolveThreshold (thExt thLegacy : Option Int) : Int :=
  match thExt with
  | some v => v
  | none => thLegacy.getD DEFAULT_REORDER_THRESHOLD

/-- Normalisation of a manual reorder quantity (lines 5720-5725): a missing or
non-positive value means "no manual suggestion". -/
def normalizeRq (raw : Option Int) : Option Int :=
  match raw with
  | none => none
  | some v => if v ≤ 0 then none else some v

/-- Manual reorder-quantity resolution (lines 5714-5725).  `rqExt` is `some v`
when the six-field key is present in the extended map with (nullable) value
`v`; membership in the extended map, not the value, decides the fallback to
the legacy map. -/
def riordiniRqManual (rqExt rqLegacy : Option (Option Int)) : Option Int :=
  normalizeRq (match rqExt with
    | some v => v
    | none => rqLegacy.getD none)

/-- One combination of the shortage pass (lines 5702-5746): `none` when the
combination is skipped (threshold sentinel) or not flagged (stock above
threshold); `some rq` when it appears in the reorder list with suggested
quantity `rq` (itself optional in the code, though always set when flagged). -/
def riordini_row (stock : Int) (thExt thLegacy : Option Int)
    (rqExt rqLegacy : Option (Option Int)) : Option (Option Int) :=
  let th := resolveThreshold thExt thLegacy
  if th = 0 then none
  else
    let rqManual := riordiniRqManual rqExt rqLegacy
    let rq : Option Int :=
      if stock ≤ th then
        match rqManual with
        | none => some (th + 1 - stock)
        | some r => if stock + r ≤ th + 1 then some (th + 1 - stock) else some r
      else rqManual
    if stock ≤ th then some rq else none

/-- C6: an article whose applicable threshold rule resolves to the `0`
sentinel is never included in the reorder output, whatever its stock level
and manual reorder quantities. -/
theorem riordini_threshold_zero_sentinel
    (stock : Int) (thExt thLegacy : Option Int)
    (rqExt rqLegacy : Option (Option Int))
    (h : resolveThreshold thExt thLegacy = 0) :
    riordini_row stock thExt thLegacy rqExt rqLegacy = none := by
  unfold riordini_row
  simp [h]

/-- Witness for C6: explicit sentinel rule with stock far below it. -/
theorem riordini_threshold_zero_sentinel_witness :
    resolveThreshold (some 0) (some 9) = 0 ∧
      riordini_row (-100) (some 0) (some 9) (some (some 4)) none = none :=
  ⟨by decide,
    riordini_threshold_zero_sentinel (-100) (some 0) (some 9) (some (some 4))
      none (by decide)⟩

/-- C7: for every flagged article (stock at or below a non-zero threshold) the
suggested quantity is `threshold + 1 - stock` when no manual reorder quantity
is set (and is then at least 1), `threshold + 1 - stock` when a manual value
`R` would not restore stock above `threshold + 1`, and `R` otherwise; in
particular stock 3, threshold 5 with no manual value suggests 3, and with
`R = 10` suggests 10. -/
theorem riordini_suggested_quantity :
    (∀ (stock : Int) (thExt thLegacy : Option Int)
        (rqExt rqLegacy : Option (Option Int)) (out : Option Int),
      riordini_row stock thExt thLegacy rqExt rqLegacy = some out →
      (riordiniRqManual rqExt rqLegacy = none →
        out = some (resolveThreshold thExt thLegacy + 1 - stock) ∧
        1 ≤ resolveThreshold thExt thLegacy + 1 - stock) ∧
      (∀ R : Int, riordiniRqManual rqExt rqLegacy = some R →
        (stock + R ≤ resolveThreshold thExt thLegacy + 1 →
          out = some (resolveThreshold thExt thLegacy + 1 - stock)) ∧
        (¬ stock + R ≤ resolveThreshold thExt thLegacy + 1 → out = some R))) ∧
    riordini_row 3 (some 5) none none none = some (some 3) ∧
    riordini_row 3 (some 5) none (some (some 10)) none = some (some 10) := by
  refine ⟨?_, by decide, by decide⟩
  intro stock thExt thLegacy rqExt rqLegacy out h
  unfold riordini_row at h
  by_cases hz : resolveThreshold thExt thLegacy = 0
  · simp [hz] at h
  · simp only [if_neg hz] at h
    by_cases hs : stock ≤ resolveThreshold thExt thLegacy
    · simp only [if_pos hs, Option.some.injEq] at h
      constructor
      · intro hnone
        rw [hnone] at h
        exact ⟨h.symm, by omega⟩
      · intro R hR
        rw [hR] at h
        by_cases hcmp : stock + R ≤ resolveThreshold thExt thLegacy + 1
        · simp only [if_pos hcmp] at h
          exact ⟨fun _ => h.symm, fun hc => absurd hcmp hc⟩
        · simp only [if_neg hcmp] at h
          exact ⟨fun hc => absurd hc hcmp, fun _ => h.symm⟩
    · simp [hs] at h

/-- Witness for C7: the two worked examples of the spec, applied through the
theorem at stock 3, threshold 5. -/
theorem riordini_suggested_quantity_witness :
    (riordiniRqManual none none = none →
      some (3 : Int) = some (resolveThreshold (some 5) none + 1 - 3) ∧
      1 ≤ resolveThreshold (some 5) none + 1 - 3) :=
  (riordini_suggested_quantity.1 3 (some 5) none none none (some 3)
    (by decide)).1

/-! ## Threshold registry writes

`update_soglia` (src/app.py lines 10121-10203) saves a threshold for a full
six-field combination on the extended table `riordino_soglie_ext`, retaining
the reorder quantity already stored for that combination (extended table
first, legacy table as fallback, default 1).  The bulk save of the `config`
route (lines 9705-9788) upserts each row on the extended table and on the
legacy table `riordino_soglie`. -/

/-- Six-field article key `(materiale, tipo, spessore, dimensione_x,
dimensione_y, produttore)`. -/
abbrev Key6 := String × String × String × String × String × String

/-- Legacy three-field key `(materiale, tipo, spessore)`. -/
abbrev Key3 := String × String × String

/-- Projection of the six-field key onto the legacy key. -/
def key3of (k : Key6) : Key3 := (k.1, k.2.1, k.2.2.1)

/-- Row of `riordino_soglie` and `riordino_soglie_ext` past the key columns:
the threshold and the (nullable) manual reorder quantity. -/
structure SoglieRow where
  threshold : Int
  quantita_riordino : Option Int
deriving DecidableEq, Repr

/-- Normalisation of the posted threshold (lines 10146-10152): an unparsable
value (`none`) or a negative value falls back to the default. -/
def normalizeSoglia (raw : Option Int) : Int :=
  match raw with
  | none => DEFAULT_REORDER_THRESHOLD
  | some v => if v < 0 then DEFAULT_REORDER_THRESHOLD else v

/-- Reorder quantity retained by `update_soglia` (lines 10156-10184): the
positive value already stored for the combination in the extended table, else
the positive value of the legacy row, else 1. -/
def retainedRq (ext : List (Key6 × SoglieRow)) (legacy : List (Key3 × SoglieRow))
    (key : Key6) : Int :=
  let qrExt : Option Int :=
    match tblGet ext key with
    | some r =>
        match r.quantita_riordino with
        | some q => if q > 0 then some q else none
        | none => none
    | none => none
  match qrExt with
  | some q => q
  | none =>
      match tblGet legacy (key3of key) with
      | some r =>
          match r.quantita_riordino with
          | some q => if q > 0 then q else 1
          | none => 1
      | none => 1

/-- `update_soglia` (lines 10121-10203): upsert the combination on the
extended table with the normalised threshold and the retained reorder
quantity.  The legacy table is only read, never written. -/
def update_soglia (ext : List (Key6 × SoglieRow)) (legacy : List (Key3 × SoglieRow))
    (key : Key6) (sogliaRaw : Option Int) :
    List (Key6 × SoglieRow) × List (Key3 × SoglieRow) :=
  let soglia := normalizeSoglia sogliaRaw
  (tblPut ext key ⟨soglia, some (retainedRq ext legacy key)⟩, legacy)

/-- Per-row body of the `config` bulk save (lines 9756-9788): upsert the
combination on the extended table and its three-field projection on the
legacy table, with the same normalised threshold and reorder quantity. -/
def config_save_row (ext : List (Key6 × SoglieRow)) (legacy : List (Key3 × SoglieRow))
    (key : Key6) (sogliaRaw : Option Int) (qrRaw : Option Int) :
    List (Key6 × SoglieRow) × List (Key3 × SoglieRow) :=
  let soglia := normalizeSoglia sogliaRaw
  let qr := match qrRaw with
    | none => 1
    | some v => if v ≤ 0 then 1 else v
  (tblPut ext key ⟨soglia, some qr⟩, tblPut legacy (key3of key) ⟨soglia, some qr⟩)

/-- Counterexample to C9: calling `update_soglia` with threshold 3 on a
combination whose legacy row holds threshold 7 leaves the legacy table at 7 —
the legacy representation does not reflect the new threshold. -/
theorem update_soglia_legacy_stale :
    (update_soglia []
        [(("Marble", "Polished", "20mm"), ⟨7, none⟩)]
        ("Marble", "Polished", "20mm", "300", "150", "Acme")
        (some 3)).2
      = [(("Marble", "Polished", "20mm"), ⟨7, none⟩)] ∧
    tblGet (update_soglia []
        [(("Marble", "Polished", "20mm"), ⟨7, none⟩)]
        ("Marble", "Polished", "20mm", "300", "150", "Acme")
        (some 3)).2 ("Marble", "Polished", "20mm")
      ≠ some ⟨3, some 1⟩ := by
  constructor
  · rfl
  · decide

/-- C9 as amended: `update_soglia` upserts only the extended representation —
after the call the extended table holds the new (normalised) threshold with
the retained reorder quantity — and returns the legacy table unchanged.  (The
bulk save of the `config` page, modelled by `config_save_row`, is the
operation that writes both tables.) -/
theorem update_soglia_ext_only
    (ext : List (Key6 × SoglieRow)) (legacy : List (Key3 × SoglieRow))
    (key : Key6) (sogliaRaw : Option Int) :
    (update_soglia ext legacy key sogliaRaw).2 = legacy ∧
    tblGet (update_soglia ext legacy key sogliaRaw).1 key
      = some ⟨normalizeSoglia sogliaRaw, some (retainedRq ext legacy key)⟩ ∧
    tblGet (config_save_row ext legacy key sogliaRaw none).2 (key3of key)
      = some ⟨normalizeSoglia sogliaRaw, some 1⟩ := by
  exact ⟨rfl, tblGet_tblPut_self _ _ _, tblGet_tblPut_self _ _ _⟩

/-! ## Acceptance tracker and order-level locks

`accettazione_update` (src/app.py lines 6898-6965) validates a partial
receipt against a `riordini_accettazione` row: it rejects when the order has
no locked supplier, when the quantity is not positive, and when the quantity
exceeds the residual; it performs no database write.  The actual mutation is
the acceptance branch of the `add` route (lines 4276-4392), which increments
`quantita_ricevuta`, logs one `accettazione` event in `riordini_effettuati`,
and deletes the row once the received quantity covers the total.
`set_fornitore_ordine` (lines 7124-7167) and `set_produttore_ordine`
(lines 7177-7226) are the one-time order-level locks.

Modelled columns: for `riordini_accettazione` the quantities, the order code
and the supplier/producer (the article fields and the location columns do not
affect the claims); integer columns read through `int(x or 0)` are modelled
as the resulting `Int`. -/

/-- Row of `riordini_accettazione` (modelled columns). -/
structure AccRow where
  quantita_totale : Int
  quantita_ricevuta : Int
  numero_ordine : Option String
  fornitore : Option String
  produttore : Option String
deriving DecidableEq, Repr

/-- Row of `riordini_effettuati` (modelled columns). -/
structure HistEvent where
  tipo_evento : String
  quantita : Int
  numero_ordine : Option String
  fornitore : Option String
  produttore : Option String
deriving DecidableEq, Repr

/-- Row of `ordine_fornitori` / `ordine_produttori` past the order code: the
candidate list, the chosen value and the lock flag. -/
structure OrdineLockRow where
  candidates : Option String
  scelto : Option String
  locked : Bool
deriving DecidableEq, Repr

/-- The mutable store touched by the acceptance workflow. -/
structure MagState where
  acc : List (Nat × AccRow)
  hist : List HistEvent
  ordine_fornitori : List (String × OrdineLockRow)
  ordine_produttori : List (String × OrdineLockRow)
deriving DecidableEq, Repr

/-- Python `x if x else None` on a nullable text column: empty string and
NULL both collapse to NULL. -/
def orNone (o : Option String) : Option String :=
  match o with
  | some f => if f = "" then none else some f
  | none => none

/-- Supplier-lock test of `accettazione_update` (lines 6932-6944): the order
must have a row in `ordine_fornitori` that is locked with a non-blank chosen
supplier. -/
def fornLockOk (ordForn : List (String × OrdineLockRow)) (num : String) : Bool :=
  match tblGet ordForn num with
  | none => false
  | some fr => fr.locked && !(pyStripS (fr.scelto.getD "") == "")

/-- Failure modes surfaced by `accettazione_update` (flash + redirect). -/
inductive AccErr where
  | recordMissing
  | supplierNotLocked
  | nonPositive
  | exceedsResidual
deriving DecidableEq, Repr

/-- Gate of the supplier-lock check (lines 6928-6944): the check only applies
when the row carries a truthy (non-NULL, non-empty) order code. -/
def accLockOk (ordForn : List (String × OrdineLockRow)) (row : AccRow) : Bool :=
  match row.numero_ordine with
  | none => true
  | some num => if num = "" then true else fornLockOk ordForn num

/-- Residual of an acceptance row (lines 6945-6958):
`quantita_totale - quantita_ricevuta` clamped at zero. -/
def accResiduo (row : AccRow) : Int :=
  let residuo0 := row.quantita_totale - row.quantita_ricevuta
  if residuo0 < 0 then 0 else residuo0

/-- Row-level validation of `accettazione_update` (lines 6925-6965). -/
def accRowCheck (ordForn : List (String × OrdineLockRow)) (row : AccRow)
    (q : Int) : Except AccErr Unit :=
  if accLockOk ordForn row then
    if q ≤ 0 then .error .nonPositive
    else if q > accResiduo row then .error .exceedsResidual
    else .ok ()
  else .error .supplierNotLocked

/-- Validation of `accettazione_update` (lines 6908-6965).  The supplier-lock
check runs only when the row carries a truthy order code; then the quantity
must be positive and within the residual.  No state is mutated here: the
route redirects to the `add` page. -/
def accettazione_update (st : MagState) (accId : Nat) (q : Int) :
    Except AccErr Unit :=
  match tblGet st.acc accId with
  | none => .error .recordMissing
  | some row => accRowCheck st.ordine_fornitori row q

/-- Acceptance branch of the `add` route (lines 4276-4392): with a valid row
id, optionally overwrite `quantita_totale` (only a positive posted value is
used), and when the accepted quantity is positive add it to
`quantita_ricevuta`, resolve supplier/producer from the form with the row
values as fallback, append one `accettazione` event carrying the accepted
quantity, and finally delete the row when the received quantity reaches the
(possibly new) total. -/
def add_accettazione (st : MagState) (accId : Nat) (newTotalRaw : Option Int)
    (acceptedQty : Int) (fornForm prodForm : String) : MagState :=
  match tblGet st.acc accId with
  | none => st
  | some row =>
      let newTotal : Option Int :=
        match newTotalRaw with
        | some nt => if nt > 0 then some nt else none
        | none => none
      let qTot := match newTotal with
        | some nt => nt
        | none => row.quantita_totale
      let row1 := { row with quantita_totale := qTot }
      if acceptedQty > 0 then
        let qRic := row.quantita_ricevuta + acceptedQty
        let newForn := if fornForm ≠ "" then some fornForm else orNone row.fornitore
        let newProd := if prodForm ≠ "" then some prodForm else orNone row.produttore
        let row2 := { row1 with
          quantita_ricevuta := qRic, fornitore := newForn, produttore := newProd }
        let acc2 := tblSet st.acc accId row2
        let hist2 := st.hist ++
          [⟨"accettazione", acceptedQty, row.numero_ordine, newForn, newProd⟩]
        if qTot > 0 ∧ qRic ≥ qTot then
          { st with acc := tblDel acc2 accId, hist := hist2 }
        else
          { st with acc := acc2, hist := hist2 }
      else
        let acc2 := match newTotal with
          | some _ => tblSet st.acc accId row1
          | none => st.acc
        if qTot > 0 ∧ row.quantita_ricevuta ≥ qTot then
          { st with acc := tblDel acc2 accId }
        else
          { st with acc := acc2 }

/-- A full receipt: the validation of `accettazione_update` followed, on
success, by the acceptance branch of `add` with the same quantity (the
redirect precompiles the `add` form with `q_parziale`; the total is not
modifiable on this path).  On failure the store is returned untouched. -/
def receive (st : MagState) (accId : Nat) (q : Int) (fornForm prodForm : String) :
    MagState × Except AccErr Unit :=
  match accettazione_update st accId q with
  | .error e => (st, .error e)
  | .ok _ => (add_accettazione st accId none q fornForm prodForm, .ok ())

/-- A sequence of receipts, each given as
`(acceptance id, quantity, supplier form value, producer form value)`. -/
def runReceives (st : MagState) (ops : List (Nat × Int × String × String)) :
    MagState :=
  ops.foldl (fun s op => (receive s op.1 op.2.1 op.2.2.1 op.2.2.2).1) st

/-- Responses of the order-level lock endpoints. -/
inductive SetResp where
  | ok
  | missing
  | alreadyLocked
deriving DecidableEq, Repr

/-- History rewrite shared by the lock endpoints: overwrite the supplier (or
producer, via `setProd`) of every `ordine` event of the order. -/
def histSetChoice (hist : List HistEvent) (num value : String) (setProd : Bool) :
    List HistEvent :=
  hist.map (fun ev =>
    if ev.numero_ordine = some num ∧ ev.tipo_evento = "ordine" then
      if setProd then { ev with produttore := some value }
      else { ev with fornitore := some value }
    else ev)

/-- `set_fornitore_ordine` (lines 7124-7167): reject blank inputs, reject an
already-locked order, otherwise insert the row if absent and set the chosen
supplier with `locked = 1`, mirroring the choice onto the `ordine` history
events. -/
def set_fornitore_ordine (st : MagState) (numRaw fornRaw : String) :
    MagState × SetResp :=
  let num := pyStripS numRaw
  let forn := pyStripS fornRaw
  if num = "" ∨ forn = "" then (st, .missing)
  else
    match tblGet st.ordine_fornitori num with
    | some r =>
        if r.locked then (st, .alreadyLocked)
        else
          ({ st with
              ordine_fornitori := tblSet st.ordine_fornitori num
                { r with scelto := some forn, locked := true },
              hist := histSetChoice st.hist num forn false }, .ok)
    | none =>
        let tbl0 := st.ordine_fornitori ++ [(num, ⟨none, none, false⟩)]
        ({ st with
            ordine_fornitori := tblSet tbl0 num ⟨none, some forn, true⟩,
            hist := histSetChoice st.hist num forn false }, .ok)

/-- `set_produttore_ordine` (lines 7177-7226): identical to the supplier lock
but on `ordine_produttori`, mirroring the producer onto the history. -/
def set_produttore_ordine (st : MagState) (numRaw prodRaw : String) :
    MagState × SetResp :=
  let num := pyStripS numRaw
  let prod := pyStripS prodRaw
  if num = "" ∨ prod = "" then (st, .missing)
  else
    match tblGet st.ordine_produttori num with
    | some r =>
        if r.locked then (st, .alreadyLocked)
        else
          ({ st with
              ordine_produttori := tblSet st.ordine_produttori num
                { r with scelto := some prod, locked := true },
              hist := histSetChoice st.hist num prod true }, .ok)
    | none =>
        let tbl0 := st.ordine_produttori ++ [(num, ⟨none, none, false⟩)]
        ({ st with
            ordine_produttori := tblSet tbl0 num ⟨none, some prod, true⟩,
            hist := histSetChoice st.hist num prod true }, .ok)

theorem receive_of_check_error {st : MagState} {accId : Nat} {q : Int}
    {e : AccErr} (ff fp : String)
    (h : accettazione_update st accId q = Except.error e) :
    receive st accId q ff fp = (st, Except.error e) := by
  unfold receive
  rw [h]

theorem receive_of_check_ok {st : MagState} {accId : Nat} {q : Int}
    (ff fp : String) (h : accettazione_update st accId q = Except.ok ()) :
    receive st accId q ff fp =
      (add_accettazione st accId none q ff fp, Except.ok ()) := by
  unfold receive
  rw [h]

/-- C4: a receipt is rejected — with the whole store left untouched —
whenever the order of the row has no locked supplier, whenever the quantity
is not positive, and whenever the quantity exceeds the residual
`quantita_totale - quantita_ricevuta`. -/
theorem accettazione_update_rejects
    (st : MagState) (accId : Nat) (q : Int) (row : AccRow) (ff fp : String)
    (hrow : tblGet st.acc accId = some row)
    (hbad :
      (∃ num, row.numero_ordine = some num ∧ num ≠ "" ∧
        fornLockOk st.ordine_fornitori num = false)
      ∨ q ≤ 0
      ∨ q > row.quantita_totale - row.quantita_ricevuta) :
    ∃ e, receive st accId q ff fp = (st, Except.error e) := by
  have hcheck : ∃ e, accRowCheck st.ordine_fornitori row q = Except.error e := by
    rcases hbad with ⟨num, hnum, hne, hlock⟩ | hq | hres
    · have hlk : accLockOk st.ordine_fornitori row = false := by
        unfold accLockOk
        rw [hnum]
        simp [hne, hlock]
      exact ⟨.supplierNotLocked, by simp [accRowCheck, hlk]⟩
    · cases hlk : accLockOk st.ordine_fornitori row
      · exact ⟨.supplierNotLocked, by simp [accRowCheck, hlk]⟩
      · exact ⟨.nonPositive, by simp [accRowCheck, hlk, hq]⟩
    · cases hlk : accLockOk st.ordine_fornitori row
      · exact ⟨.supplierNotLocked, by simp [accRowCheck, hlk]⟩
      · by_cases hq : q ≤ 0
        · exact ⟨.nonPositive, by simp [accRowCheck, hlk, hq]⟩
        · refine ⟨.exceedsResidual, ?_⟩
          have hr : q > accResiduo row := by
            unfold accResiduo
            by_cases h0 : row.quantita_totale - row.quantita_ricevuta < 0
            · simp only [if_pos h0]; omega
            · simp only [if_neg h0]; omega
          simp [accRowCheck, hlk, hq, hr]
  obtain ⟨e, he⟩ := hcheck
  refine ⟨e, receive_of_check_error ff fp ?_⟩
  unfold accettazione_update
  rw [hrow]
  exact he

/-- Witness for C4: a row of order `TM2025/0001` whose supplier lock is
absent; a receipt of quantity 3 is rejected with the store untouched. -/
theorem accettazione_update_rejects_witness :
    ∃ e,
      receive
        ⟨[(1, ⟨8, 0, some "TM2025/0001", none, none⟩)], [], [], []⟩
        1 3 "" ""
      = (⟨[(1, ⟨8, 0, some "TM2025/0001", none, none⟩)], [], [], []⟩,
          Except.error e) :=
  accettazione_update_rejects
    ⟨[(1, ⟨8, 0, some "TM2025/0001", none, none⟩)], [], [], []⟩
    1 3 ⟨8, 0, some "TM2025/0001", none, none⟩ "" ""
    (by decide)
    (Or.inl ⟨"TM2025/0001", rfl, by decide, by decide⟩)

/-- C10: when the acceptance row carries a NULL or empty order code the
supplier-lock check is skipped entirely: a receipt within the residual and
with positive quantity succeeds whatever the `ordine_fornitori` table
contains. -/
theorem accettazione_update_skips_lock_without_order
    (st : MagState) (accId : Nat) (q : Int) (row : AccRow) (ff fp : String)
    (hrow : tblGet st.acc accId = some row)
    (hord : row.numero_ordine = none ∨ row.numero_ordine = some "")
    (hpos : 0 < q) (hres : q ≤ accResiduo row) :
    (receive st accId q ff fp).2 = Except.ok () := by
  have hlk : accLockOk st.ordine_fornitori row = true := by
    unfold accLockOk
    rcases hord with h | h
    · rw [h]
    · rw [h]; simp
  have hok : accettazione_update st accId q = Except.ok () := by
    unfold accettazione_update
    rw [hrow]
    have hq : ¬ q ≤ 0 := by omega
    have hr : ¬ q > accResiduo row := by omega
    simp [accRowCheck, hlk, hq, hr]
  rw [receive_of_check_ok ff fp hok]

/-- Witness for C10: a record with no order code at all, an empty supplier
table, and a receipt of 3 out of 8: the receipt goes through. -/
theorem accettazione_update_skips_lock_without_order_witness :
    (receive ⟨[(7, ⟨8, 0, none, none, none⟩)], [], [], []⟩ 7 3 "" "").2
      = Except.ok () :=
  accettazione_update_skips_lock_without_order
    ⟨[(7, ⟨8, 0, none, none, none⟩)], [], [], []⟩
    7 3 ⟨8, 0, none, none, none⟩ "" ""
    (by decide) (Or.inl rfl) (by decide) (by decide)

/-- C8: locking the supplier of an order — and likewise the producer — is a
one-time operation: a second attempt on an order whose lock flag is set
fails with the conflict response and returns the store unchanged, so the
stored chosen value survives. -/
theorem order_locks_are_one_time
    (st : MagState) (numRaw v : String) (r : OrdineLockRow)
    (hnum : pyStripS numRaw ≠ "") (hv : pyStripS v ≠ "") :
    (tblGet st.ordine_fornitori (pyStripS numRaw) = some r → r.locked = true →
      set_fornitore_ordine st numRaw v = (st, SetResp.alreadyLocked)) ∧
    (tblGet st.ordine_produttori (pyStripS numRaw) = some r → r.locked = true →
      set_produttore_ordine st numRaw v = (st, SetResp.alreadyLocked)) := by
  constructor
  · intro hrow hlocked
    unfold set_fornitore_ordine
    rw [if_neg (by simp [hnum, hv]), hrow]
    simp [hlocked]
  · intro hrow hlocked
    unfold set_produttore_ordine
    rw [if_neg (by simp [hnum, hv]), hrow]
    simp [hlocked]

/-- Witness for C8: re-locking order `TM2025/0001` (supplier and producer
already confirmed) is rejected and leaves the stored choices in place. -/
theorem order_locks_are_one_time_witness :
    set_fornitore_ordine
        ⟨[], [], [("TM2025/0001", ⟨none, some "Acme", true⟩)],
          [("TM2025/0001", ⟨none, some "Acme", true⟩)]⟩
        "TM2025/0001" "Other"
      = (⟨[], [], [("TM2025/0001", ⟨none, some "Acme", true⟩)],
          [("TM2025/0001", ⟨none, some "Acme", true⟩)]⟩,
          SetResp.alreadyLocked) :=
  (order_locks_are_one_time
    ⟨[], [], [("TM2025/0001", ⟨none, some "Acme", true⟩)],
      [("TM2025/0001", ⟨none, some "Acme", true⟩)]⟩
    "TM2025/0001" "Other" ⟨none, some "Acme", true⟩
    (by decide) (by decide)).1 (by decide) rfl

/-- `tblGet` hits are members of the table. -/
theorem tblGet_mem {α β : Type} [DecidableEq α]
    {l : List (α × β)} {key : α} {v : β} (h : tblGet l key = some v) :
    (key, v) ∈ l := by
  induction l with
  | nil => simp [tblGet] at h
  | cons p rest ih =>
      obtain ⟨k, w⟩ := p
      by_cases hk : k = key
      · rw [tblGet, if_pos hk] at h
        subst hk
        cases h
        exact List.mem_cons_self _ _
      · rw [tblGet, if_neg hk] at h
        exact List.mem_cons_of_mem _ (ih h)

/-- Store invariant on acceptance rows (spec §3): the received quantity is
non-negative and never exceeds the total.  `confirm_rdo` creates every row
with `quantita_ricevuta = 0` and a positive total. -/
def accInv (st : MagState) : Prop :=
  ∀ p ∈ st.acc, 0 ≤ p.2.quantita_ricevuta ∧
    p.2.quantita_ricevuta ≤ p.2.quantita_totale

theorem check_ok_elim {st : MagState} {accId : Nat} {q : Int}
    (h : accettazione_update st accId q = Except.ok ()) :
    ∃ row, tblGet st.acc accId = some row ∧ 0 < q ∧
      q ≤ row.quantita_totale - row.quantita_ricevuta := by
  unfold accettazione_update at h
  cases hrow : tblGet st.acc accId with
  | none => rw [hrow] at h; simp at h
  | some row =>
      rw [hrow] at h
      have h2 : accRowCheck st.ordine_fornitori row q = Except.ok () := h
      unfold accRowCheck at h2
      cases hlk : accLockOk st.ordine_fornitori row
      · rw [hlk] at h2; simp at h2
      · rw [hlk] at h2
        by_cases hq : q ≤ 0
        · simp [hq] at h2
        · by_cases hr : q > accResiduo row
          · simp [hq, hr] at h2
          · refine ⟨row, rfl, by omega, ?_⟩
            unfold accResiduo at hr
            by_cases h0 : row.quantita_totale - row.quantita_ricevuta < 0
            · rw [if_pos h0] at hr; omega
            · rw [if_neg h0] at hr; omega

theorem receive_preserves_none {st : MagState} {accId : Nat} {q : Int}
    {ff fp : String} {id : Nat} (h : tblGet st.acc id = none) :
    tblGet (receive st accId q ff fp).1.acc id = none := by
  cases hcheck : accettazione_update st accId q with
  | error e => rw [receive_of_check_error ff fp hcheck]; exact h
  | ok u =>
      cases u
      rw [receive_of_check_ok ff fp hcheck]
      obtain ⟨row, hrow, hq, hle⟩ := check_ok_elim hcheck
      by_cases hid : id = accId
      · subst hid
        rw [h] at hrow
        cases hrow
      · simp only [add_accettazione, hrow]
        rw [if_pos hq]
        split
        · show tblGet (tblDel (tblSet st.acc accId _) accId) id = none
          rw [tblGet_tblDel_ne _ _ _ hid, tblGet_tblSet_ne _ _ _ _ hid]
          exact h
        · show tblGet (tblSet st.acc accId _) id = none
          rw [tblGet_tblSet_ne _ _ _ _ hid]
          exact h

theorem receive_preserves_inv {st : MagState} {accId : Nat} {q : Int}
    {ff fp : String} (hinv : accInv st) :
    accInv (receive st accId q ff fp).1 := by
  cases hcheck : accettazione_update st accId q with
  | error e => rw [receive_of_check_error ff fp hcheck]; exact hinv
  | ok u =>
      cases u
      rw [receive_of_check_ok ff fp hcheck]
      obtain ⟨row, hrow, hq, hle⟩ := check_ok_elim hcheck
      have hb : 0 ≤ row.quantita_ricevuta ∧
          row.quantita_ricevuta ≤ row.quantita_totale :=
        hinv (accId, row) (tblGet_mem hrow)
      simp only [add_accettazione, hrow]
      rw [if_pos hq]
      split
      · intro p hp
        rcases mem_tblSet_elim (mem_tblDel_elim hp) with hmem | hval
        · exact hinv p hmem
        · rw [hval]
          refine ⟨?_, ?_⟩
          · show (0 : Int) ≤ row.quantita_ricevuta + q
            omega
          · show row.quantita_ricevuta + q ≤ row.quantita_totale
            omega
      · intro p hp
        rcases mem_tblSet_elim hp with hmem | hval
        · exact hinv p hmem
        · rw [hval]
          refine ⟨?_, ?_⟩
          · show (0 : Int) ≤ row.quantita_ricevuta + q
            omega
          · show row.quantita_ricevuta + q ≤ row.quantita_totale
            omega

theorem receive_mono_step {st : MagState} {accId : Nat} {q : Int}
    {ff fp : String} {id : Nat} {row row' : AccRow}
    (h1 : tblGet st.acc id = some row)
    (h2 : tblGet (receive st accId q ff fp).1.acc id = some row') :
    row.quantita_ricevuta ≤ row'.quantita_ricevuta := by
  cases hcheck : accettazione_update st accId q with
  | error e =>
      rw [receive_of_check_error ff fp hcheck] at h2
      rw [h1] at h2
      cases h2
      exact le_refl _
  | ok u =>
      cases u
      rw [receive_of_check_ok ff fp hcheck] at h2
      obtain ⟨rowA, hrowA, hq, hle⟩ := check_ok_elim hcheck
      by_cases hid : id = accId
      · subst hid
        rw [h1] at hrowA
        cases hrowA
        simp only [add_accettazione, h1] at h2
        rw [if_pos hq] at h2
        split at h2
        · rw [tblGet_tblDel_self] at h2
          cases h2
        · rw [tblGet_tblSet_self, h1] at h2
          injection h2 with h2
          rw [← h2]
          show row.quantita_ricevuta ≤ row.quantita_ricevuta + q
          omega
      · simp only [add_accettazione, hrowA] at h2
        rw [if_pos hq] at h2
        split at h2
        · rw [tblGet_tblDel_ne _ _ _ hid, tblGet_tblSet_ne _ _ _ _ hid,
            h1] at h2
          cases h2
          exact le_refl _
        · rw [tblGet_tblSet_ne _ _ _ _ hid, h1] at h2
          cases h2
          exact le_refl _

theorem runReceives_cons (st : MagState) (op : Nat × Int × String × String)
    (ops : List (Nat × Int × String × String)) :
    runReceives st (op :: ops) =
      runReceives (receive st op.1 op.2.1 op.2.2.1 op.2.2.2).1 ops := rfl

theorem runReceives_inv {st : MagState}
    {ops : List (Nat × Int × String × String)} (hinv : accInv st) :
    accInv (runReceives st ops) := by
  induction ops generalizing st with
  | nil => exact hinv
  | cons op ops ih =>
      rw [runReceives_cons]
      exact ih (receive_preserves_inv hinv)

theorem runReceives_none {st : MagState}
    {ops : List (Nat × Int × String × String)} {id : Nat}
    (h : tblGet st.acc id = none) :
    tblGet (runReceives st ops).acc id = none := by
  induction ops generalizing st with
  | nil => exact h
  | cons op ops ih =>
      rw [runReceives_cons]
      exact ih (receive_preserves_none h)

theorem runReceives_mono {st : MagState}
    {ops : List (Nat × Int × String × String)} {id : Nat} {row row' : AccRow}
    (h1 : tblGet st.acc id = some row)
    (h2 : tblGet (runReceives st ops).acc id = some row') :
    row.quantita_ricevuta ≤ row'.quantita_ricevuta := by
  induction ops generalizing st row with
  | nil =>
      have h2' : tblGet st.acc id = some row' := h2
      rw [h1] at h2'
      cases h2'
      exact le_refl _
  | cons op ops ih =>
      rw [runReceives_cons] at h2
      cases hmid : tblGet (receive st op.1 op.2.1 op.2.2.1 op.2.2.2).1.acc id with
      | none => rw [runReceives_none hmid] at h2; cases h2
      | some rowMid =>
          exact le_trans (receive_mono_step h1 hmid) (ih hmid h2)

/-- C5: across any sequence of receipts the store invariant
`0 ≤ quantita_ricevuta ≤ quantita_totale` is preserved, the received
quantity of every surviving acceptance row is non-decreasing, and each
successful receipt appends exactly one `accettazione` history event carrying
the received quantity while deleting the row exactly when the received
quantity reaches the total. -/
theorem acceptance_receive_lifecycle :
    (∀ (st : MagState) (ops : List (Nat × Int × String × String)),
        accInv st → accInv (runReceives st ops)) ∧
    (∀ (st : MagState) (ops : List (Nat × Int × String × String))
        (accId : Nat) (row row' : AccRow),
        tblGet st.acc accId = some row →
        tblGet (runReceives st ops).acc accId = some row' →
        row.quantita_ricevuta ≤ row'.quantita_ricevuta) ∧
    (∀ (st : MagState) (accId : Nat) (q : Int) (ff fp : String) (row : AccRow),
        accInv st →
        tblGet st.acc accId = some row →
        (receive st accId q ff fp).2 = Except.ok () →
        (∃ ev : HistEvent,
          (receive st accId q ff fp).1.hist = st.hist ++ [ev] ∧
          ev.tipo_evento = "accettazione" ∧ ev.quantita = q ∧
          ev.numero_ordine = row.numero_ordine) ∧
        (tblGet (receive st accId q ff fp).1.acc accId = none ↔
          row.quantita_ricevuta + q = row.quantita_totale)) := by
  refine ⟨fun st ops h => runReceives_inv h,
    fun st ops accId row row' h1 h2 => runReceives_mono h1 h2,
    fun st accId q ff fp row hinv hrow hok => ?_⟩
  cases hcheck : accettazione_update st accId q with
  | error e => rw [receive_of_check_error ff fp hcheck] at hok; simp at hok
  | ok u =>
      cases u
      obtain ⟨rowA, hrowA, hq, hle⟩ := check_ok_elim hcheck
      rw [hrow] at hrowA
      cases hrowA
      have hb : 0 ≤ row.quantita_ricevuta ∧
          row.quantita_ricevuta ≤ row.quantita_totale :=
        hinv (accId, row) (tblGet_mem hrow)
      rw [receive_of_check_ok ff fp hcheck]
      constructor
      · refine ⟨⟨"accettazione", q, row.numero_ordine,
          (if ff ≠ "" then some ff else orNone row.fornitore),
          (if fp ≠ "" then some fp else orNone row.produttore)⟩,
          ?_, rfl, rfl, rfl⟩
        simp only [add_accettazione, hrow]
        rw [if_pos hq]
        split
        · rfl
        · rfl
      · simp only [add_accettazione, hrow]
        rw [if_pos hq]
        split
        case isTrue h =>
          rw [tblGet_tblDel_self]
          constructor
          · intro _
            omega
          · intro _
            rfl
        case isFalse h =>
          rw [tblGet_tblSet_self, hrow]
          constructor
          · intro hcontra
            exact Option.noConfusion hcontra
          · intro heq
            exfalso
            exact h ⟨by omega, by omega⟩

/-- Witness for C5: a record with total 8, received 0, receiving exactly 8
closes the record and appends one `accettazione` event with quantity 8. -/
theorem acceptance_receive_lifecycle_witness :
    (∃ ev : HistEvent,
      (receive ⟨[(1, ⟨8, 0, none, none, none⟩)], [], [], []⟩ 1 8 "" "").1.hist
        = ([] : List HistEvent) ++ [ev] ∧
      ev.tipo_evento = "accettazione" ∧ ev.quantita = 8 ∧
      ev.numero_ordine = none) ∧
    (tblGet (receive ⟨[(1, ⟨8, 0, none, none, none⟩)], [], [], []⟩
        1 8 "" "").1.acc 1 = none ↔ (0 : Int) + 8 = 8) :=
  acceptance_receive_lifecycle.2.2
    ⟨[(1, ⟨8, 0, none, none, none⟩)], [], [], []⟩ 1 8 "" ""
    ⟨8, 0, none, none, none⟩
    (by
      intro p hp
      simp only [List.mem_singleton] at hp
      subst hp
      exact ⟨by decide, by decide⟩)
    (by decide) rfl

/-! ## Order confirmation: quantity apportionment

`confirm_rdo` (src/app.py lines 7588-7948) first rebuilds the clean list of
delivery pairs from the posted arrays `dates[]`, `qtys[]`,
`produttore_scelti[]` and the order total (lines 7692-7747).  Quantities are
already the result of Python `int(...)` with parse failures mapped to 0, so
they are modelled as `Int`. -/

/-- Producer attached to the delivery at index `idx` (lines 7729-7740): the
stripped entry of the posted producer array at the same index when present
and non-blank, else the stripped form-level producer (empty meaning NULL). -/
def resolveDateProd (prods : List String) (formProd : String) (idx : Nat) :
    Option String :=
  let p := if prods ≠ [] ∧ idx < prods.length then pyStripS (prods.getD idx "")
    else ""
  if p = "" then (if formProd = "" then none else some formProd) else some p

/-- Loop of the apportionment (lines 7712-7747) over the zipped date/quantity
lists, carrying the running index and remainder.  An entry with a blank date
is skipped (but still consumes its index); at index 0 a quantity below 1 is
clamped up to 1; a quantity above the remainder is clamped down to it; the
triple is kept only when the clamped quantity is positive, decrementing the
remainder; the loop breaks once the remainder is exhausted. -/
def cleanPairsGo (prods : List String) (formProd : String) :
    Nat → Int → List (String × Int) → List (String × Int × Option String)
  | _, _, [] => []
  | idx, remaining, (dtRaw, qRaw) :: rest =>
      let dt := pyStripS dtRaw
      if dt = "" then cleanPairsGo prods formProd (idx + 1) remaining rest
      else
        let q1 := if idx = 0 ∧ qRaw < 1 then 1 else qRaw
        let q2 := if q1 > remaining then remaining else q1
        if q2 > 0 then
          let rem2 := remaining - q2
          (dt, q2, resolveDateProd prods formProd idx) ::
            (if rem2 ≤ 0 then []
             else cleanPairsGo prods formProd (idx + 1) rem2 rest)
        else
          if remaining ≤ 0 then []
          else cleanPairsGo prods formProd (idx + 1) remaining rest

/-- The clean delivery list of `confirm_rdo` (lines 7697-7747), built from
the posted arrays and the total order quantity. -/
def clean_pairs (dates : List String) (qtys : List Int) (prods : List String)
    (formProd : String) (totalQty : Int) :
    List (String × Int × Option String) :=
  if dates = [] then [] else cleanPairsGo prods formProd 0 totalQty (dates.zip qtys)

/-- The apportionment reference algorithm in the words of the spec (§4.4
step 1): a running remainder starts at the total; the pair at index 0 with a
raw quantity below 1 is clamped up to 1; every quantity is clamped to
`min raw remaining`; a pair is accepted only if the clamped value is
positive, which decrements the remainder; processing stops once the
remainder reaches 0, dropping all later pairs. -/
def apportionSpecGo : Nat → Int → List (String × Int) → List (String × Int)
  | _, _, [] => []
  | idx, remaining, (dt, raw) :: rest =>
      let q1 := if idx = 0 ∧ raw < 1 then 1 else raw
      let q2 := min q1 remaining
      if q2 > 0 then
        let rem2 := remaining - q2
        (dt, q2) :: (if rem2 = 0 then [] else apportionSpecGo (idx + 1) rem2 rest)
      else
        if remaining = 0 then [] else apportionSpecGo (idx + 1) remaining rest

/-- Reference apportionment of a total over submitted pairs. -/
def apportionSpec (Q : Int) (pairs : List (String × Int)) :
    List (String × Int) :=
  apportionSpecGo 0 Q pairs

/-- Sum of the accepted quantities of a clean delivery list. -/
def sumQty (l : List (String × Int × Option String)) : Int :=
  (l.map (fun t => t.2.1)).sum

/-- Sum of the raw submitted quantities. -/
def rawSum (pairs : List (String × Int)) : Int :=
  (pairs.map (fun p => p.2)).sum

theorem sumQty_nil : sumQty [] = 0 := rfl

theorem sumQty_cons (t : String × Int × Option String)
    (l : List (String × Int × Option String)) :
    sumQty (t :: l) = t.2.1 + sumQty l := by
  simp [sumQty]

theorem sumQty_nonneg {l : List (String × Int × Option String)}
    (h : ∀ t ∈ l, 0 < t.2.1) : 0 ≤ sumQty l := by
  induction l with
  | nil => simp [sumQty_nil]
  | cons t l ih =>
      rw [sumQty_cons]
      have h1 := h t (List.mem_cons_self _ _)
      have h2 := ih (fun u hu => h u (List.mem_cons_of_mem _ hu))
      omega

theorem cleanPairsGo_pos (prods : List String) (formProd : String) :
    ∀ (l : List (String × Int)) (idx : Nat) (r : Int),
      ∀ t ∈ cleanPairsGo prods formProd idx r l, 0 < t.2.1 := by
  intro l
  induction l with
  | nil => intro idx r t ht; simp [cleanPairsGo] at ht
  | cons p rest ih =>
      obtain ⟨dtRaw, qRaw⟩ := p
      intro idx r t ht
      simp only [cleanPairsGo] at ht
      by_cases hdt : pyStripS dtRaw = ""
      · rw [if_pos hdt] at ht
        exact ih _ _ t ht
      · rw [if_neg hdt] at ht
        by_cases hacc :
            (if (if idx = 0 ∧ qRaw < 1 then 1 else qRaw) > r then r
             else if idx = 0 ∧ qRaw < 1 then 1 else qRaw) > 0
        · rw [if_pos hacc] at ht
          rcases List.mem_cons.mp ht with h1 | h2
          · rw [h1]; exact hacc
          · by_cases h0 :
                r - (if (if idx = 0 ∧ qRaw < 1 then 1 else qRaw) > r then r
                     else if idx = 0 ∧ qRaw < 1 then 1 else qRaw) ≤ 0
            · rw [if_pos h0] at h2; simp at h2
            · rw [if_neg h0] at h2
              exact ih _ _ t h2
        · rw [if_neg hacc] at ht
          by_cases h0 : r ≤ 0
          · rw [if_pos h0] at ht; simp at ht
          · rw [if_neg h0] at ht
            exact ih _ _ t ht

theorem cleanPairsGo_le (prods : List String) (formProd : String) :
    ∀ (l : List (String × Int)) (idx : Nat) (r : Int),
      ∀ t ∈ cleanPairsGo prods formProd idx r l, t.2.1 ≤ r := by
  intro l
  induction l with
  | nil => intro idx r t ht; simp [cleanPairsGo] at ht
  | cons p rest ih =>
      obtain ⟨dtRaw, qRaw⟩ := p
      intro idx r t ht
      simp only [cleanPairsGo] at ht
      by_cases hdt : pyStripS dtRaw = ""
      · rw [if_pos hdt] at ht
        exact ih _ _ t ht
      · rw [if_neg hdt] at ht
        set q1 := if idx = 0 ∧ qRaw < 1 then 1 else qRaw with hq1
        set q2 := if q1 > r then r else q1 with hq2
        have hq2r : q2 ≤ r := by
          rw [hq2]
          by_cases hgt : q1 > r
          · rw [if_pos hgt]
          · rw [if_neg hgt]; omega
        by_cases hacc : q2 > 0
        · rw [if_pos hacc] at ht
          rcases List.mem_cons.mp ht with h1 | h2
          · rw [h1]; exact hq2r
          · by_cases h0 : r - q2 ≤ 0
            · rw [if_pos h0] at h2; simp at h2
            · rw [if_neg h0] at h2
              have := ih _ _ t h2
              omega
        · rw [if_neg hacc] at ht
          by_cases h0 : r ≤ 0
          · rw [if_pos h0] at ht; simp at ht
          · rw [if_neg h0] at ht
            exact ih _ _ t ht

theorem cleanPairsGo_sum_le (prods : List String) (formProd : String) :
    ∀ (l : List (String × Int)) (idx : Nat) (r : Int), 0 ≤ r →
      sumQty (cleanPairsGo prods formProd idx r l) ≤ r := by
  intro l
  induction l with
  | nil => intro idx r hr; simp [cleanPairsGo, sumQty_nil]; exact hr
  | cons p rest ih =>
      obtain ⟨dtRaw, qRaw⟩ := p
      intro idx r hr
      simp only [cleanPairsGo]
      by_cases hdt : pyStripS dtRaw = ""
      · rw [if_pos hdt]
        exact ih _ _ hr
      · rw [if_neg hdt]
        set q1 := if idx = 0 ∧ qRaw < 1 then 1 else qRaw with hq1
        set q2 := if q1 > r then r else q1 with hq2
        have hq2r : q2 ≤ r := by
          rw [hq2]
          by_cases hgt : q1 > r
          · rw [if_pos hgt]
          · rw [if_neg hgt]; omega
        by_cases hacc : q2 > 0
        · rw [if_pos hacc]
          by_cases h0 : r - q2 ≤ 0
          · rw [if_pos h0]
            simp only [sumQty_cons, sumQty_nil]
            omega
          · rw [if_neg h0]
            simp only [sumQty_cons]
            have := ih (idx + 1) (r - q2) (by omega)
            omega
        · rw [if_neg hacc]
          by_cases h0 : r ≤ 0
          · rw [if_pos h0, sumQty_nil]; exact hr
          · rw [if_neg h0]
            exact ih _ _ hr

theorem cleanPairsGo_head (prods : List String) (formProd : String)
    (dt : String) (raw : Int) (rest : List (String × Int)) (r : Int)
    (hdt1 : pyStripS dt = dt) (hdt2 : dt ≠ "") (hr : 1 ≤ r) :
    ∃ q2 tail,
      cleanPairsGo prods formProd 0 r ((dt, raw) :: rest) =
        (dt, q2, resolveDateProd prods formProd 0) :: tail ∧ 1 ≤ q2 := by
  simp only [cleanPairsGo, hdt1, true_and]
  rw [if_neg hdt2]
  by_cases hc : raw < 1
  · rw [if_pos hc]
    have h2 : ¬ (1 : Int) > r := by omega
    rw [if_neg h2]
    rw [if_pos (by omega : (1 : Int) > 0)]
    exact ⟨1, _, rfl, le_refl 1⟩
  · rw [if_neg hc]
    have hraw : 1 ≤ raw := by omega
    by_cases hgt : raw > r
    · rw [if_pos hgt]
      rw [if_pos (by omega : r > 0)]
      exact ⟨r, _, rfl, hr⟩
    · rw [if_neg hgt]
      rw [if_pos (by omega : raw > 0)]
      exact ⟨raw, _, rfl, hraw⟩

theorem apportionSpecGo_neg :
    ∀ (l : List (String × Int)) (idx : Nat) (r : Int), r < 0 →
      apportionSpecGo idx r l = [] := by
  intro l
  induction l with
  | nil => intro idx r _; rfl
  | cons p rest ih =>
      obtain ⟨dt, raw⟩ := p
      intro idx r hr
      simp only [apportionSpecGo]
      have hq2 : ¬ min (if idx = 0 ∧ raw < 1 then 1 else raw) r > 0 := by
        by_cases hc : idx = 0 ∧ raw < 1
        · rw [if_pos hc]; omega
        · rw [if_neg hc]; omega
      rw [if_neg hq2, if_neg (by omega : ¬ r = 0)]
      exact ih _ _ hr

theorem cleanPairsGo_refines (prods : List String) (formProd : String) :
    ∀ (l : List (String × Int)) (idx : Nat) (r : Int),
      (∀ p ∈ l, pyStripS p.1 = p.1 ∧ p.1 ≠ "") →
      (cleanPairsGo prods formProd idx r l).map (fun t => (t.1, t.2.1)) =
        apportionSpecGo idx r l := by
  intro l
  induction l with
  | nil => intro idx r _; rfl
  | cons p rest ih =>
      obtain ⟨dt, raw⟩ := p
      intro idx r hl
      obtain ⟨hdt1, hdt2⟩ := hl (dt, raw) (List.mem_cons_self _ _)
      have hrest : ∀ p ∈ rest, pyStripS p.1 = p.1 ∧ p.1 ≠ "" :=
        fun p hp => hl p (List.mem_cons_of_mem _ hp)
      simp only [cleanPairsGo, apportionSpecGo, hdt1]
      rw [if_neg hdt2]
      set q1 := if idx = 0 ∧ raw < 1 then 1 else raw with hq1
      have hmin : min q1 r = if q1 > r then r else q1 := by
        by_cases hgt : q1 > r
        · rw [if_pos hgt]; omega
        · rw [if_neg hgt]; omega
      rw [← hmin]
      set q2 := min q1 r with hq2
      have hq2r : q2 ≤ r := by omega
      by_cases hacc : q2 > 0
      · rw [if_pos hacc, if_pos hacc]
        have hrem : 0 ≤ r - q2 := by omega
        by_cases h0 : r - q2 = 0
        · rw [if_pos (by omega : r - q2 ≤ 0), if_pos h0]
          rfl
        · rw [if_neg (by omega : ¬ r - q2 ≤ 0), if_neg h0]
          rw [List.map_cons]
          rw [ih _ _ hrest]
      · rw [if_neg hacc, if_neg hacc]
        by_cases h0 : r = 0
        · rw [if_pos (by omega : r ≤ 0), if_pos h0]
          rfl
        · rw [if_neg h0]
          by_cases hneg : r ≤ 0
          · rw [if_pos hneg]
            rw [apportionSpecGo_neg _ _ _ (by omega)]
            rfl
          · rw [if_neg hneg]
            exact ih _ _ hrest

/-- C1: the apportionment of `confirm_rdo` follows the reference algorithm of
the spec on every submitted list of valid (non-blank, stripped) dated pairs,
whatever the producer arrays; and apportioning `Q = 20` over
`[("2024-06-01", 5), ("2024-06-15", 30)]` accepts
`[("2024-06-01", 5), ("2024-06-15", 15)]`. -/
theorem confirm_rdo_apportionment :
    (∀ (Q : Int) (pairs : List (String × Int)) (prods : List String)
        (formProd : String),
      (∀ p ∈ pairs, pyStripS p.1 = p.1 ∧ p.1 ≠ "") →
      (clean_pairs (pairs.map Prod.fst) (pairs.map Prod.snd) prods formProd
          Q).map (fun t => (t.1, t.2.1)) = apportionSpec Q pairs) ∧
    (clean_pairs ["2024-06-01", "2024-06-15"] [5, 30] [] "" 20).map
        (fun t => (t.1, t.2.1))
      = [("2024-06-01", 5), ("2024-06-15", 15)] := by
  constructor
  · intro Q pairs prods formProd hvalid
    cases pairs with
    | nil => rfl
    | cons p rest =>
        unfold clean_pairs apportionSpec
        rw [if_neg (by simp : ¬ ((p :: rest).map Prod.fst = []))]
        rw [List.zip_map']
        have heta : (rest.map fun a => (a.1, a.2)) = rest :=
          List.map_id rest
        rw [show ((p :: rest).map fun a => (a.1, a.2)) = p :: rest from
          List.map_id (p :: rest)]
        exact cleanPairsGo_refines prods formProd (p :: rest) 0 Q hvalid
  · decide

/-- Witness for C1: the refinement applied at `Q = 7` and a single valid
pair. -/
theorem confirm_rdo_apportionment_witness :
    (clean_pairs (([("2024-07-01", 3)] : List (String × Int)).map Prod.fst)
        ([("2024-07-01", 3)].map Prod.snd) [] "" 7).map
        (fun t => (t.1, t.2.1))
      = apportionSpec 7 [("2024-07-01", 3)] :=
  confirm_rdo_apportionment.1 7 [("2024-07-01", 3)] [] "" (by decide)

/-- C2: for every total and every submitted list of valid dated pairs the
accepted quantities sum to at most the (non-negative) total, no accepted
quantity exceeds the total, every accepted quantity is at least 1 when the
total is, and when the total is at least 1 and the raw quantities sum to at
least 1 the accepted total is positive. -/
theorem confirm_rdo_apportionment_bounds
    (Q : Int) (pairs : List (String × Int)) (prods : List String)
    (formProd : String)
    (hvalid : ∀ p ∈ pairs, pyStripS p.1 = p.1 ∧ p.1 ≠ "") :
    (0 ≤ Q →
      sumQty (clean_pairs (pairs.map Prod.fst) (pairs.map Prod.snd) prods
        formProd Q) ≤ Q) ∧
    (∀ t ∈ clean_pairs (pairs.map Prod.fst) (pairs.map Prod.snd) prods
        formProd Q, t.2.1 ≤ Q) ∧
    (1 ≤ Q →
      ∀ t ∈ clean_pairs (pairs.map Prod.fst) (pairs.map Prod.snd) prods
        formProd Q, 1 ≤ t.2.1) ∧
    (1 ≤ Q → 1 ≤ rawSum pairs →
      0 < sumQty (clean_pairs (pairs.map Prod.fst) (pairs.map Prod.snd) prods
        formProd Q)) := by
  cases pairs with
  | nil =>
      refine ⟨fun hq => by simpa [clean_pairs, sumQty] using hq,
        fun t ht => by simp [clean_pairs] at ht,
        fun _ t ht => by simp [clean_pairs] at ht,
        fun _ hraw => by simp [rawSum] at hraw⟩
  | cons p rest =>
      obtain ⟨dt, raw⟩ := p
      have hne : ¬ (((dt, raw) :: rest).map Prod.fst = []) := by simp
      have hzip : (((dt, raw) :: rest).map Prod.fst).zip
          (((dt, raw) :: rest).map Prod.snd) = (dt, raw) :: rest := by
        rw [List.zip_map']
        exact List.map_id _
      have hcp : clean_pairs (((dt, raw) :: rest).map Prod.fst)
          (((dt, raw) :: rest).map Prod.snd) prods formProd Q
          = cleanPairsGo prods formProd 0 Q ((dt, raw) :: rest) := by
        unfold clean_pairs
        rw [if_neg hne, hzip]
      refine ⟨?_, ?_, ?_, ?_⟩
      · intro hq
        rw [hcp]
        exact cleanPairsGo_sum_le prods formProd _ 0 Q hq
      · intro t ht
        rw [hcp] at ht
        exact cleanPairsGo_le prods formProd _ 0 Q t ht
      · intro _ t ht
        rw [hcp] at ht
        have := cleanPairsGo_pos prods formProd _ 0 Q t ht
        omega
      · intro hq _
        rw [hcp]
        obtain ⟨hdt1, hdt2⟩ := hvalid (dt, raw) (List.mem_cons_self _ _)
        obtain ⟨q2, tail, heq, hq2⟩ :=
          cleanPairsGo_head prods formProd dt raw rest Q hdt1 hdt2 hq
        rw [heq, sumQty_cons]
        show 0 < q2 + sumQty tail
        have htail : 0 ≤ sumQty tail := by
          apply sumQty_nonneg
          intro t ht
          apply cleanPairsGo_pos prods formProd ((dt, raw) :: rest) 0 Q t
          rw [heq]
          exact List.mem_cons_of_mem _ ht
        omega

/-- Witness for C2: the bounds at `Q = 20` over the two dated pairs of the
spec example. -/
theorem confirm_rdo_apportionment_bounds_witness :
    (0 ≤ (20 : Int) →
      sumQty (clean_pairs
        (([("2024-06-01", 5), ("2024-06-15", 30)] :
            List (String × Int)).map Prod.fst)
        ([("2024-06-01", 5), ("2024-06-15", 30)].map Prod.snd) [] "" 20)
        ≤ 20) ∧
    (1 ≤ (20 : Int) → 1 ≤ rawSum [("2024-06-01", 5), ("2024-06-15", 30)] →
      0 < sumQty (clean_pairs
        (([("2024-06-01", 5), ("2024-06-15", 30)] :
            List (String × Int)).map Prod.fst)
        ([("2024-06-01", 5), ("2024-06-15", 30)].map Prod.snd) [] "" 20)) :=
  ⟨(confirm_rdo_apportionment_bounds 20
      [("2024-06-01", 5), ("2024-06-15", 30)] [] "" (by decide)).1,
    (confirm_rdo_apportionment_bounds 20
      [("2024-06-01", 5), ("2024-06-15", 30)] [] "" (by decide)).2.2.2⟩

/-! ## Order code generation

`generate_order_code` (src/app.py lines 464-498) scans every non-NULL,
non-empty `numero_ordine` of the history table `riordini_effettuati`, keeps
the codes that — once stripped — start with `"TM{year}/"` and whose text
after the first slash parses as an integer, and returns
`"TM{year}/{max+1:04d}"`.  Text is modelled at the character level; decimal
rendering and `int()` parsing are modelled explicitly (Python `int` also
accepts underscore separators and non-ASCII digits, which never occur in
this data and are not modelled). -/

/-- Character of a decimal digit: `'0' + d`. -/
def digitChar (d : Nat) : Char := Char.ofNat (48 + d)

/-- Decimal digits of a natural number, least significant first, computed
with explicit fuel so that the definition is structural. -/
def natToRevDigitsAux : Nat → Nat → List Char
  | _, 0 => []
  | n, fuel + 1 =>
      if n < 10 then [digitChar n]
      else digitChar (n % 10) :: natToRevDigitsAux (n / 10) fuel

/-- Decimal digits of a natural number, least significant first. -/
def natToRevDigits (n : Nat) : List Char := natToRevDigitsAux n (n + 1)

/-- Decimal rendering of a natural number (Python `str(n)` for `n ≥ 0`). -/
def digitsOf (n : Nat) : List Char := (natToRevDigits n).reverse

/-- Python `f"{n:04d}"` for a non-negative value: pad the decimal rendering
to width 4 with leading zeros. -/
def pad4 (n : Nat) : List Char :=
  List.replicate (4 - (digitsOf n).length) '0' ++ digitsOf n

/-- Value of one ASCII digit character. -/
def digitVal (c : Char) : Option Nat :=
  if c.isDigit then some (c.toNat - 48) else none

/-- Accumulating parse of a digit string. -/
def pyDigitsGo : Nat → List Char → Option Nat
  | acc, [] => some acc
  | acc, c :: cs =>
      match digitVal c with
      | some d => pyDigitsGo (acc * 10 + d) cs
      | none => none

/-- Parse of an unsigned digit string: fails on empty input or on any
non-digit character. -/
def pyNat? (l : List Char) : Option Nat :=
  match l with
  | [] => none
  | _ => pyDigitsGo 0 l

/-- Python `int(str)`: surrounding whitespace is ignored, then an optional
sign followed by at least one digit. -/
def pyInt? (l : List Char) : Option Int :=
  match pyStripL l with
  | [] => none
  | c :: cs =>
      if c = '+' then
        match pyNat? cs with
        | some n => some (Int.ofNat n)
        | none => none
      else if c = '-' then
        match pyNat? cs with
        | some n => some (-(Int.ofNat n))
        | none => none
      else
        match pyNat? (c :: cs) with
        | some n => some (Int.ofNat n)
        | none => none

/-- Characters after the first slash: `code.split('/', 1)[1]` (the caller
reaches it only on codes that contain a slash). -/
def afterFirstSlash : List Char → List Char
  | [] => []
  | c :: cs => if c = '/' then cs else afterFirstSlash cs

/-- The `"TM{year}/"` prefix. -/
def tmPrefix (year : Nat) : List Char :=
  'T' :: 'M' :: (digitsOf year ++ ['/'])

/-- The order code `"TM{year}/{seq:04d}"`. -/
def tmCode (year seq : Nat) : List Char := tmPrefix year ++ pad4 seq

/-- Fold step of `generate_order_code` (lines 483-496) on one
`numero_ordine` value: NULL and empty codes are skipped, the rest are
stripped, and a code with the year prefix whose tail after the first slash
parses contributes to the running maximum. -/
def genCodeStep (year : Nat) (m : Int) (oc : Option (List Char)) : Int :=
  match oc with
  | none => m
  | some code0 =>
      if code0 = [] then m
      else
        let code := pyStripL code0
        if (tmPrefix year).isPrefixOf code then
          match pyInt? (afterFirstSlash code) with
          | some p => if p > m then p else m
          | none => m
        else m

/-- `generate_order_code` (lines 464-498): the next progressive order code
of the year over the `numero_ordine` column of the history table. -/
def generate_order_code (year : Nat) (codes : List (Option (List Char))) :
    List Char :=
  let maxProg := codes.foldl (genCodeStep year) 0
  tmPrefix year ++ pad4 (maxProg + 1).toNat

/-- Confirming `n` orders in sequence: each confirmation generates a code
over the current history and appends its `ordine` event to it
(`confirm_rdo`, lines 7798-7874). -/
def confirmCodes (year : Nat) (init : List (Option (List Char))) :
    Nat → List (Option (List Char))
  | 0 => init
  | n + 1 =>
      let h := confirmCodes year init n
      h ++ [some (generate_order_code year h)]

/-- A history value that counts toward the maximum of the year: non-NULL,
non-empty, carrying the `"TM{year}/"` prefix once stripped, with a parsable
sequence part. -/
def matchesYear (year : Nat) (oc : Option (List Char)) : Bool :=
  match oc with
  | none => false
  | some code0 =>
      if code0 = [] then false
      else
        let code := pyStripL code0
        (tmPrefix year).isPrefixOf code && (pyInt? (afterFirstSlash code)).isSome

theorem digitChar_facts : ∀ d, d < 10 →
    digitVal (digitChar d) = some d ∧ (digitChar d).isWhitespace = false ∧
    digitChar d ≠ '/' ∧ digitChar d ≠ '+' ∧ digitChar d ≠ '-' := by decide

theorem natToRevDigitsAux_fuel : ∀ (f g n : Nat), n < f → n < g →
    natToRevDigitsAux n f = natToRevDigitsAux n g := by
  intro f
  induction f with
  | zero => intro g n hf; omega
  | succ f ih =>
      intro g n hf hg
      cases g with
      | zero => omega
      | succ g =>
          show (if n < 10 then [digitChar n]
              else digitChar (n % 10) :: natToRevDigitsAux (n / 10) f) =
            (if n < 10 then [digitChar n]
              else digitChar (n % 10) :: natToRevDigitsAux (n / 10) g)
          by_cases h10 : n < 10
          · rw [if_pos h10, if_pos h10]
          · rw [if_neg h10, if_neg h10]
            have hdiv : n / 10 < n := Nat.div_lt_self (by omega) (by omega)
            rw [ih g (n / 10) (by omega) (by omega)]

theorem natToRevDigits_eq (n : Nat) :
    natToRevDigits n =
      if n < 10 then [digitChar n]
      else digitChar (n % 10) :: natToRevDigits (n / 10) := by
  show (if n < 10 then [digitChar n]
      else digitChar (n % 10) :: natToRevDigitsAux (n / 10) n) = _
  by_cases h10 : n < 10
  · rw [if_pos h10, if_pos h10]
  · rw [if_neg h10, if_neg h10]
    have hdiv : n / 10 < n := Nat.div_lt_self (by omega) (by omega)
    rw [natToRevDigitsAux_fuel n (n / 10 + 1) (n / 10) (by omega) (by omega)]
    rfl

theorem natToRevDigits_ne_nil (n : Nat) : natToRevDigits n ≠ [] := by
  rw [natToRevDigits_eq]
  by_cases h10 : n < 10
  · rw [if_pos h10]; simp
  · rw [if_neg h10]; simp

theorem digitsOf_ne_nil (n : Nat) : digitsOf n ≠ [] := by
  unfold digitsOf
  simpa using natToRevDigits_ne_nil n

theorem mem_natToRevDigits : ∀ (n : Nat), ∀ c ∈ natToRevDigits n,
    ∃ d, d < 10 ∧ c = digitChar d := by
  intro n
  induction n using Nat.strong_induction_on with
  | _ n ih =>
      intro c hc
      rw [natToRevDigits_eq] at hc
      by_cases h10 : n < 10
      · rw [if_pos h10] at hc
        simp only [List.mem_singleton] at hc
        exact ⟨n, h10, hc⟩
      · rw [if_neg h10] at hc
        rcases List.mem_cons.mp hc with h1 | h2
        · exact ⟨n % 10, by omega, h1⟩
        · exact ih (n / 10) (Nat.div_lt_self (by omega) (by omega)) c h2

theorem mem_digitsOf {n : Nat} {c : Char} (hc : c ∈ digitsOf n) :
    ∃ d, d < 10 ∧ c = digitChar d := by
  unfold digitsOf at hc
  exact mem_natToRevDigits n c (List.mem_reverse.mp hc)

theorem mem_pad4 {n : Nat} {c : Char} (hc : c ∈ pad4 n) :
    ∃ d, d < 10 ∧ c = digitChar d := by
  unfold pad4 at hc
  rcases List.mem_append.mp hc with h1 | h2
  · have : c = '0' := List.eq_of_mem_replicate h1
    exact ⟨0, by omega, by rw [this]; decide⟩
  · exact mem_digitsOf h2

theorem digitsOf_ge_ten {n : Nat} (h : ¬ n < 10) :
    digitsOf n = digitsOf (n / 10) ++ [digitChar (n % 10)] := by
  unfold digitsOf
  rw [natToRevDigits_eq, if_neg h, List.reverse_cons]

theorem pyDigitsGo_append : ∀ (xs ys : List Char) (acc : Nat),
    pyDigitsGo acc (xs ++ ys) =
      (pyDigitsGo acc xs).bind (fun a => pyDigitsGo a ys) := by
  intro xs
  induction xs with
  | nil => intro ys acc; rfl
  | cons c cs ih =>
      intro ys acc
      cases hd : digitVal c with
      | some d =>
          have h1 : pyDigitsGo acc (c :: cs) = pyDigitsGo (acc * 10 + d) cs := by
            show (match digitVal c with
              | some d => pyDigitsGo (acc * 10 + d) cs
              | none => none) = _
            rw [hd]
          have h2 : pyDigitsGo acc (c :: (cs ++ ys)) =
              pyDigitsGo (acc * 10 + d) (cs ++ ys) := by
            show (match digitVal c with
              | some d => pyDigitsGo (acc * 10 + d) (cs ++ ys)
              | none => none) = _
            rw [hd]
          rw [show (c :: cs) ++ ys = c :: (cs ++ ys) from rfl, h2, h1, ih]
      | none =>
          have h1 : pyDigitsGo acc (c :: cs) = none := by
            show (match digitVal c with
              | some d => pyDigitsGo (acc * 10 + d) cs
              | none => none) = _
            rw [hd]
          have h2 : pyDigitsGo acc (c :: (cs ++ ys)) = none := by
            show (match digitVal c with
              | some d => pyDigitsGo (acc * 10 + d) (cs ++ ys)
              | none => none) = _
            rw [hd]
          rw [show (c :: cs) ++ ys = c :: (cs ++ ys) from rfl, h2, h1]
          rfl

theorem pyDigitsGo_digitsOf : ∀ (n acc : Nat),
    pyDigitsGo acc (digitsOf n) =
      some (acc * 10 ^ (digitsOf n).length + n) := by
  intro n
  induction n using Nat.strong_induction_on with
  | _ n ih =>
      intro acc
      by_cases h10 : n < 10
      · have hdig : digitsOf n = [digitChar n] := by
          unfold digitsOf
          rw [natToRevDigits_eq, if_pos h10]
          rfl
        rw [hdig]
        have hdv : digitVal (digitChar n) = some n := (digitChar_facts n h10).1
        show (match digitVal (digitChar n) with
          | some d => pyDigitsGo (acc * 10 + d) []
          | none => none) = _
        rw [hdv]
        show some (acc * 10 + n) = some (acc * 10 ^ 1 + n)
        rw [pow_one]
      · rw [digitsOf_ge_ten h10, pyDigitsGo_append]
        rw [ih (n / 10) (Nat.div_lt_self (by omega) (by omega)) acc]
        have hdv : digitVal (digitChar (n % 10)) = some (n % 10) :=
          (digitChar_facts (n % 10) (by omega)).1
        show (match digitVal (digitChar (n % 10)) with
          | some d =>
              pyDigitsGo ((acc * 10 ^ (digitsOf (n / 10)).length + n / 10)
                * 10 + d) []
          | none => none) = _
        rw [hdv]
        have hlen : (digitsOf (n / 10) ++ [digitChar (n % 10)]).length =
            (digitsOf (n / 10)).length + 1 := by simp
        rw [hlen]
        show some ((acc * 10 ^ (digitsOf (n / 10)).length + n / 10) * 10
            + n % 10)
          = some (acc * 10 ^ ((digitsOf (n / 10)).length + 1) + n)
        have h10' : 10 * (n / 10) + n % 10 = n := Nat.div_add_mod n 10
        have key : (acc * 10 ^ (digitsOf (n / 10)).length + n / 10) * 10
            + n % 10 = acc * 10 ^ ((digitsOf (n / 10)).length + 1) + n := by
          calc (acc * 10 ^ (digitsOf (n / 10)).length + n / 10) * 10 + n % 10
              = acc * (10 ^ (digitsOf (n / 10)).length * 10)
                + (10 * (n / 10) + n % 10) := by ring
            _ = acc * 10 ^ ((digitsOf (n / 10)).length + 1) + n := by
                rw [h10', pow_succ]
        rw [key]

theorem pyDigitsGo_replicate_zero : ∀ k : Nat,
    pyDigitsGo 0 (List.replicate k '0') = some 0 := by
  intro k
  induction k with
  | zero => rfl
  | succ k ih =>
      rw [List.replicate_succ]
      have h0 : digitVal '0' = some 0 := by decide
      show (match digitVal '0' with
        | some d => pyDigitsGo (0 * 10 + d) (List.replicate k '0')
        | none => none) = some 0
      rw [h0]
      show pyDigitsGo (0 * 10 + 0) (List.replicate k '0') = some 0
      rw [show (0 : Nat) * 10 + 0 = 0 by omega]
      exact ih

theorem pad4_ne_nil (n : Nat) : pad4 n ≠ [] := by
  unfold pad4
  intro h
  rcases List.append_eq_nil.mp h with ⟨_, h2⟩
  exact digitsOf_ne_nil n h2

theorem pyNat?_of_ne_nil {l : List Char} (h : l ≠ []) :
    pyNat? l = pyDigitsGo 0 l := by
  cases l with
  | nil => exact absurd rfl h
  | cons c cs => rfl

theorem pyNat?_pad4 (n : Nat) : pyNat? (pad4 n) = some n := by
  rw [pyNat?_of_ne_nil (pad4_ne_nil n)]
  unfold pad4
  rw [pyDigitsGo_append, pyDigitsGo_replicate_zero]
  show pyDigitsGo 0 (digitsOf n) = some n
  rw [pyDigitsGo_digitsOf]
  simp

theorem dropWhile_of_no_ws {l : List Char}
    (h : ∀ c ∈ l, c.isWhitespace = false) :
    l.dropWhile Char.isWhitespace = l := by
  cases l with
  | nil => rfl
  | cons c cs =>
      rw [List.dropWhile_cons]
      rw [h c (List.mem_cons_self _ _)]
      rfl

theorem pyStripL_of_no_ws {l : List Char}
    (h : ∀ c ∈ l, c.isWhitespace = false) : pyStripL l = l := by
  unfold pyStripL
  rw [dropWhile_of_no_ws h]
  rw [dropWhile_of_no_ws (fun c hc => h c (List.mem_reverse.mp hc))]
  exact List.reverse_reverse l

theorem mem_tmCode_no_ws {year s : Nat} :
    ∀ c ∈ tmCode year s, c.isWhitespace = false := by
  intro c hc
  unfold tmCode tmPrefix at hc
  rcases List.mem_append.mp hc with h1 | h2
  · rcases List.mem_cons.mp h1 with h | h
    · rw [h]; decide
    · rcases List.mem_cons.mp h with h' | h'
      · rw [h']; decide
      · rcases List.mem_append.mp h' with hd | hs
        · obtain ⟨d, hd10, rfl⟩ := mem_digitsOf hd
          exact (digitChar_facts d hd10).2.1
        · rw [List.mem_singleton.mp hs]; decide
  · obtain ⟨d, hd10, rfl⟩ := mem_pad4 h2
    exact (digitChar_facts d hd10).2.1

theorem isPrefixOf_self_append : ∀ (l t : List Char),
    l.isPrefixOf (l ++ t) = true := by
  intro l
  induction l with
  | nil => intro t; simp [List.isPrefixOf]
  | cons c cs ih =>
      intro t
      simp only [List.cons_append, List.isPrefixOf_cons₂_self]
      exact ih t

theorem afterFirstSlash_no_slash_append :
    ∀ (xs ys : List Char), '/' ∉ xs →
      afterFirstSlash (xs ++ '/' :: ys) = ys := by
  intro xs
  induction xs with
  | nil =>
      intro ys _
      show (if '/' = '/' then ys else afterFirstSlash ys) = ys
      rw [if_pos rfl]
  | cons c cs ih =>
      intro ys hmem
      have hc : c ≠ '/' := fun h => hmem (by rw [h]; exact List.mem_cons_self _ _)
      show (if c = '/' then cs ++ '/' :: ys
          else afterFirstSlash (cs ++ '/' :: ys)) = ys
      rw [if_neg hc]
      exact ih ys (fun h => hmem (List.mem_cons_of_mem _ h))

theorem afterFirstSlash_tmCode (year s : Nat) :
    afterFirstSlash (tmCode year s) = pad4 s := by
  have hshape : tmCode year s =
      ('T' :: 'M' :: digitsOf year) ++ '/' :: pad4 s := by
    unfold tmCode tmPrefix
    simp
  rw [hshape]
  apply afterFirstSlash_no_slash_append
  intro hmem
  rcases List.mem_cons.mp hmem with h | h
  · exact absurd h.symm (by decide)
  · rcases List.mem_cons.mp h with h' | h'
    · exact absurd h'.symm (by decide)
    · obtain ⟨d, hd10, hd⟩ := mem_digitsOf h'
      exact (digitChar_facts d hd10).2.2.1 hd.symm

theorem pyInt?_cons_eq (l : List Char) (c : Char) (cs : List Char)
    (h : pyStripL l = c :: cs) (hplus : c ≠ '+') (hminus : c ≠ '-') :
    pyInt? l =
      match pyNat? (c :: cs) with
      | some n => some (Int.ofNat n)
      | none => none := by
  unfold pyInt?
  rw [h]
  show (if c = '+' then
      match pyNat? cs with
      | some n => some (Int.ofNat n)
      | none => none
    else if c = '-' then
      match pyNat? cs with
      | some n => some (-(Int.ofNat n))
      | none => none
    else
      match pyNat? (c :: cs) with
      | some n => some (Int.ofNat n)
      | none => none) = _
  rw [if_neg hplus, if_neg hminus]

theorem pyInt?_pad4 (n : Nat) : pyInt? (pad4 n) = some (n : Int) := by
  have hstrip : pyStripL (pad4 n) = pad4 n := by
    apply pyStripL_of_no_ws
    intro c hc
    obtain ⟨d, hd10, rfl⟩ := mem_pad4 hc
    exact (digitChar_facts d hd10).2.1
  cases hp : pad4 n with
  | nil => exact absurd hp (pad4_ne_nil n)
  | cons c cs =>
      have hcd : ∃ d, d < 10 ∧ c = digitChar d :=
        mem_pad4 (by rw [hp]; exact List.mem_cons_self _ _)
      obtain ⟨d, hd10, rfl⟩ := hcd
      have hplus : digitChar d ≠ '+' := (digitChar_facts d hd10).2.2.2.1
      have hminus : digitChar d ≠ '-' := (digitChar_facts d hd10).2.2.2.2
      rw [hp] at hstrip
      rw [pyInt?_cons_eq (digitChar d :: cs) (digitChar d) cs hstrip
        hplus hminus]
      rw [← hp, pyNat?_pad4]
      rfl

theorem tmCode_ne_nil (year s : Nat) : tmCode year s ≠ [] := by
  unfold tmCode tmPrefix
  simp

theorem genCodeStep_tmCode (year s : Nat) (m : Int) :
    genCodeStep year m (some (tmCode year s)) =
      if (s : Int) > m then (s : Int) else m := by
  show (if tmCode year s = [] then m
    else
      if (tmPrefix year).isPrefixOf (pyStripL (tmCode year s)) then
        match pyInt? (afterFirstSlash (pyStripL (tmCode year s))) with
        | some p => if p > m then p else m
        | none => m
      else m) = _
  rw [if_neg (tmCode_ne_nil year s)]
  rw [pyStripL_of_no_ws mem_tmCode_no_ws]
  have hpre : (tmPrefix year).isPrefixOf (tmCode year s) = true :=
    isPrefixOf_self_append _ _
  rw [if_pos hpre]
  rw [afterFirstSlash_tmCode, pyInt?_pad4]

theorem genCodeStep_nonmatching {year : Nat} {oc : Option (List Char)}
    (h : matchesYear year oc = false) (m : Int) :
    genCodeStep year m oc = m := by
  cases oc with
  | none => rfl
  | some code0 =>
      by_cases hnil : code0 = []
      · show (if code0 = [] then m else _) = m
        rw [if_pos hnil]
      · have h' : ((tmPrefix year).isPrefixOf (pyStripL code0) &&
            (pyInt? (afterFirstSlash (pyStripL code0))).isSome) = false := by
          have : matchesYear year (some code0) =
              ((tmPrefix year).isPrefixOf (pyStripL code0) &&
                (pyInt? (afterFirstSlash (pyStripL code0))).isSome) := by
            show (if code0 = [] then false else _) = _
            rw [if_neg hnil]
          rw [← this]
          exact h
        show (if code0 = [] then m
          else
            if (tmPrefix year).isPrefixOf (pyStripL code0) then
              match pyInt? (afterFirstSlash (pyStripL code0)) with
              | some p => if p > m then p else m
              | none => m
            else m) = m
        rw [if_neg hnil]
        cases hpre : (tmPrefix year).isPrefixOf (pyStripL code0) with
        | false => simp
        | true =>
            rw [if_pos rfl]
            rw [hpre] at h'
            simp only [Bool.true_and] at h'
            cases hpi : pyInt? (afterFirstSlash (pyStripL code0)) with
            | some p => rw [hpi] at h'; simp at h'
            | none => rfl

theorem foldl_nonmatching {year : Nat} :
    ∀ (init : List (Option (List Char))) (m : Int),
      (∀ oc ∈ init, matchesYear year oc = false) →
      init.foldl (genCodeStep year) m = m := by
  intro init
  induction init with
  | nil => intro m _; rfl
  | cons oc rest ih =>
      intro m h
      rw [List.foldl_cons,
        genCodeStep_nonmatching (h oc (List.mem_cons_self _ _)) m]
      exact ih m (fun x hx => h x (List.mem_cons_of_mem _ hx))

theorem tmCode_inj {year s t : Nat} (h : tmCode year s = tmCode year t) :
    s = t := by
  unfold tmCode at h
  have hpad : pad4 s = pad4 t := List.append_cancel_left h
  have := congrArg pyNat? hpad
  rw [pyNat?_pad4, pyNat?_pad4] at this
  exact Option.some.inj this

theorem confirmCodes_progression {year : Nat}
    {init : List (Option (List Char))}
    (hinit : ∀ oc ∈ init, matchesYear year oc = false) :
    ∀ N : Nat,
      confirmCodes year init N =
        init ++ (List.range N).map (fun i => some (tmCode year (i + 1))) ∧
      (confirmCodes year init N).foldl (genCodeStep year) 0 = (N : Int) := by
  intro N
  induction N with
  | zero =>
      refine ⟨by simp [confirmCodes], ?_⟩
      show init.foldl (genCodeStep year) 0 = (0 : Int)
      exact foldl_nonmatching init 0 hinit
  | succ N ih =>
      obtain ⟨hA, hB⟩ := ih
      have hgen : generate_order_code year (confirmCodes year init N)
          = tmCode year (N + 1) := by
        unfold generate_order_code
        rw [hB]
        show tmPrefix year ++ pad4 ((N : Int) + 1).toNat = tmCode year (N + 1)
        rw [show ((N : Int) + 1).toNat = N + 1 by omega]
        rfl
      have hstep : confirmCodes year init (N + 1) =
          confirmCodes year init N ++
            [some (generate_order_code year (confirmCodes year init N))] := rfl
      constructor
      · rw [hstep, hgen, hA, List.range_succ]
        simp [List.append_assoc]
      · rw [hstep, hgen, List.foldl_append, hB, List.foldl_cons]
        show genCodeStep year (N : Int) (some (tmCode year (N + 1)))
          = ((N + 1 : Nat) : Int)
        rw [genCodeStep_tmCode]
        rw [if_pos (by push_cast; omega)]

/-- C3: order-code generation ignores any history value that is not a
parsable `"TM{year}/…"` code of the year, and confirming `N` orders in
sequence from a history with no order of the year produces exactly the
codes `TM{year}/0001 … TM{year}/{N:04d}` (as formatted by `tmCode`), all
distinct. -/
theorem generate_order_code_progression :
    (∀ (year : Nat) (codes : List (Option (List Char)))
        (junk : Option (List Char)),
      matchesYear year junk = false →
      generate_order_code year (codes ++ [junk]) =
        generate_order_code year codes) ∧
    (∀ (year : Nat) (init : List (Option (List Char))) (N : Nat),
      (∀ oc ∈ init, matchesYear year oc = false) →
      confirmCodes year init N =
        init ++ (List.range N).map (fun i => some (tmCode year (i + 1))) ∧
      ((List.range N).map (fun i => tmCode year (i + 1))).Nodup) := by
  constructor
  · intro year codes junk hj
    unfold generate_order_code
    rw [List.foldl_append, List.foldl_cons, List.foldl_nil,
      genCodeStep_nonmatching hj]
  · intro year init N hinit
    refine ⟨(confirmCodes_progression hinit N).1, ?_⟩
    apply List.Nodup.map
    · intro a b hab
      have := tmCode_inj hab
      omega
    · exact List.nodup_range N

/-- Witness for C3: two sequential confirmations in year 2025 over a history
holding only a legacy code produce `TM2025/0001` and `TM2025/0002`. -/
theorem generate_order_code_progression_witness :
    confirmCodes 2025 [some ("ORD-000123".data)] 2 =
      [some ("ORD-000123".data)] ++
        (List.range 2).map (fun i => some (tmCode 2025 (i + 1))) ∧
    ((List.range 2).map (fun i => tmCode 2025 (i + 1))).Nodup :=
  generate_order_code_progression.2 2025 [some ("ORD-000123".data)] 2
    (by decide)

end Magazzino
